import Mathlib

/-!
Shallow embedding of the GoHashCheckMe pipeline core (processFile, runCommand's
command-string construction, the worker/writer pair, loadAuditFile and
mergeHashFiles) together with theorems settling the specification claims.

File-system effects (hashing a file, executing a shell command) are abstracted
as explicit function parameters: `hashOf` returns the hex digest a file hashes
to (or `none` when `hashFile` fails), and `runExit` returns the exit code
`runCommand` would produce for a given configuration and file.  Everything
else is translated directly from the Go source.
-/

set_option autoImplicit false

namespace GoHashCheckMe

/-- One persisted audit record `{filename, hash}` (struct `AuditEntry`). -/
structure AuditEntry where
  filename : String
  hash : String
deriving Repr, DecidableEq

/-- Per-file output record (struct `Result`).  Go zero values give
`ExitCode = 0`, `Audited = false`, `Changed = false` at construction. -/
structure Result where
  filename : String
  hash : String
  exitCode : Int
  audited : Bool
  changed : Bool
deriving Repr, DecidableEq

/-- Immutable per-run settings (struct `Config`).  The Go fields
`successCodes`/`errorCodes` are `map[int]bool`; indexing a Go map returns the
zero value `false` for absent keys, so they are embedded as total boolean
functions on `Int`. -/
structure Config where
  command : String
  hashesFile : String
  audit : Bool
  update : Bool
  successCodes : Int → Bool
  errorCodes : Int → Bool
  filterOnCodes : Bool
  workers : Nat
  showProgress : Bool
  quiet : Bool

/-- The audit map `map[string]string` is embedded as an association list with
unique keys (uniqueness holds for every map the program builds). -/
abbrev AuditMap := List AuditEntry

/-- Go map read `m[k]` returning `(value, ok)`: the first entry with key `k`. -/
def lookupE : AuditMap → String → Option String
  | [], _ => none
  | e :: t, k => if e.filename = k then some e.hash else lookupE t k

/-- Diagnostics `processFile` can emit through `logError`. -/
inductive LogEvent where
  | hashError (filename : String)
  | sentinelHint (filename : String)
deriving Repr, DecidableEq

/-- Observable outcome of one `processFile` call: the optional `Result` it
returns, whether `runCommand` was invoked, and the diagnostics logged. -/
structure ProcOut where
  result : Option Result
  ran : Bool
  logs : List LogEvent
deriving Repr, DecidableEq

/-- Lines 33-40 of the processor source: when an audit map is present and
contains the filename, mark `Audited` and set `Changed` to whether the fresh
hash differs from the recorded one.  Returns `(audited, changed)`. -/
def auditFlags (auditMap : Option AuditMap) (filename hash : String) : Bool × Bool :=
  match auditMap with
  | none => (false, false)
  | some m =>
    match lookupE m filename with
    | none => (false, false)
    | some expectedHash => (true, hash != expectedHash)

/-- `processFile(filename, cfg, auditMap)` from the Go source: hash the file
(log and return nil on failure), consult the audit map, run the command when
`cfg.command != "" && (!cfg.audit || result.Changed)`, special-case the `-1`
sentinel under filtering, then filter on the success/error code sets. -/
def processFile (hashOf : String → Option String) (runExit : Config → String → Int)
    (filename : String) (cfg : Config) (auditMap : Option AuditMap) : ProcOut :=
  match hashOf filename with
  | none =>
    { result := none, ran := false
      logs := if cfg.quiet then [] else [LogEvent.hashError filename] }
  | some hash =>
    let flags := auditFlags auditMap filename hash
    let base : Result :=
      { filename := filename, hash := hash, exitCode := 0
        audited := flags.1, changed := flags.2 }
    if cfg.command != "" && (!cfg.audit || flags.2) then
      let exitCode := runExit cfg filename
      if exitCode == -1 && cfg.filterOnCodes && !(cfg.errorCodes (-1)) then
        { result := none, ran := true
          logs := if cfg.quiet then [] else [LogEvent.sentinelHint filename] }
      else if cfg.filterOnCodes && !(cfg.successCodes exitCode) && !(cfg.errorCodes exitCode) then
        { result := none, ran := true, logs := [] }
      else
        { result := some { base with exitCode := exitCode }, ran := true, logs := [] }
    else
      { result := some base, ran := false, logs := [] }

/-- The worker loop forwards exactly the non-nil results of `processFile`;
with the job queue pre-filled and every worker draining it, the multiset of
results reaching the writer is the filter-map of `processFile` over the input
list (order across files carries no guarantee and is irrelevant here). -/
def processFiles (hashOf : String → Option String) (runExit : Config → String → Int)
    (files : List String) (cfg : Config) (auditMap : Option AuditMap) : List Result :=
  files.filterMap (fun f => (processFile hashOf runExit f cfg auditMap).result)

/-- Staging record written for a result: `AuditEntry{Filename, Hash}`. -/
def toEntry (r : Result) : AuditEntry :=
  { filename := r.filename, hash := r.hash }

/-- Writer-side outputs of `writeResults`: the JSON-encoded result stream and
the `{filename, hash}` records appended to the `.new` staging file. -/
structure WriteOut where
  encoded : List Result
  staging : List AuditEntry
deriving Repr, DecidableEq

/-- The `for result := range results` loop body of `writeResults`, restricted
to its staging effect: append `toEntry result` when the staging encoder exists
(`hasNew`) and `result.ExitCode == 0`. -/
def stagingWrites (hasNew : Bool) : List Result → List AuditEntry
  | [] => []
  | r :: rest =>
    if hasNew && r.exitCode == 0 then toEntry r :: stagingWrites hasNew rest
    else stagingWrites hasNew rest

/-- `writeResults` from the Go source: every received result is encoded to the
main output; the `.new` staging encoder exists when `cfg.update &&
cfg.hashesFile != ""` (and `os.Create` succeeded, assumed here), and receives
an entry per result with exit code exactly 0. -/
def writeResults (results : List Result) (cfg : Config) : WriteOut :=
  { encoded := results
    staging := stagingWrites (cfg.update && cfg.hashesFile != "") results }

/-- Go map write `m[k] = v`: replace the entry for `k` in place, or append a
fresh entry when `k` is absent. -/
def setE : AuditMap → String → String → AuditMap
  | [], k, v => [{ filename := k, hash := v }]
  | e :: t, k, v =>
    if e.filename = k then { filename := k, hash := v } :: t else e :: setE t k v

/-- The map-building loop of `loadAuditFile`: starting from the empty map,
execute `auditMap[entry.Filename] = entry.Hash` for each decoded record in
file order (so a later duplicate filename wins). -/
def asMap (records : List AuditEntry) : AuditMap :=
  records.foldl (fun m e => setE m e.filename e.hash) []

/-- One decoded item of an audit file: either a well-formed record or a
record the JSON decoder rejects (a non-EOF `Decode` error). -/
inductive RawRecord where
  | ok (entry : AuditEntry)
  | malformed
deriving Repr, DecidableEq

/-- Outcome of `loadAuditFile`:
`noAudit` is the nil map returned for an empty path; `createdEmpty` is the
missing-file case (an empty file is created on disk and the empty map
returned); `loaded m` is a successfully decoded map; `fatal` is `os.Exit(1)`
on a malformed record. -/
inductive LoadResult where
  | noAudit
  | createdEmpty
  | loaded (m : AuditMap)
  | fatal
deriving Repr, DecidableEq

/-- The decode loop of `loadAuditFile`: fold records until EOF, failing on the
first malformed one (`none` models the `os.Exit(1)` path). -/
def decodeRecords : List RawRecord → Option (List AuditEntry)
  | [] => some []
  | RawRecord.ok e :: t => (decodeRecords t).map (fun es => e :: es)
  | RawRecord.malformed :: _ => none

/-- `loadAuditFile(filename)` from the Go source, with the file system passed
explicitly: `content` is `none` when the file does not exist and otherwise the
decoded stream of the file's records. -/
def loadAuditFile (filename : String) (content : Option (List RawRecord)) : LoadResult :=
  if filename = "" then LoadResult.noAudit
  else
    match content with
    | none => LoadResult.createdEmpty
    | some records =>
      match decodeRecords records with
      | none => LoadResult.fatal
      | some entries => LoadResult.loaded (asMap entries)

/-- The map `loadAuditFile` hands to the processor: `nil` for `noAudit`, the
empty map after creating a missing file, the decoded map otherwise (`fatal`
never returns, its value is irrelevant). -/
def LoadResult.toMap : LoadResult → Option AuditMap
  | LoadResult.noAudit => none
  | LoadResult.createdEmpty => some []
  | LoadResult.loaded m => some m
  | LoadResult.fatal => none

/-- On-disk state of the audit store around `mergeHashFiles`: the record list
of the main hashes file (`none` when the file does not exist) and of the
`.new` staging file (`none` when absent).  Records are given already decoded;
the merge claims quantify over well-formed stores. -/
structure StoreState where
  main : Option (List AuditEntry)
  staging : Option (List AuditEntry)
deriving Repr, DecidableEq

/-- `mergeHashFiles(hashesFile)` from the Go source: return immediately when
the `.new` file is absent; otherwise load both files (a missing main file
loads as the empty map), execute `existingHashes[filename] = hash` for every
entry of the staging map, write the merged map back and remove the `.new`
file.  The write-out iterates a Go map, so the record order of the rewritten
main file is arbitrary; the canonical order of the merged association list
stands in for it, which is harmless because every claim about the store reads
it through `asMap`/`lookupE`. -/
def mergeHashFiles (s : StoreState) : StoreState :=
  match s.staging with
  | none => s
  | some stagingRecords =>
    let existingHashes := asMap (s.main.getD [])
    let newHashes := asMap stagingRecords
    let merged := newHashes.foldl (fun m e => setE m e.filename e.hash) existingHashes
    { main := some merged, staging := none }

/-- `runCommand`'s fixed allow-list of placeholder-free standalone verbs. -/
def standaloneCommands : List String := ["exit", "true", "false"]

/-- Character-level occurrence test matching Go `strings.Contains`. -/
def containsSeq (s pat : List Char) : Bool :=
  pat.isPrefixOf s ||
    match s with
    | [] => false
    | _ :: t => containsSeq t pat

/-- Character-level replacement of every non-overlapping occurrence, left to
right, matching Go `strings.ReplaceAll`. -/
def replaceAllSeq (s pat repl : List Char) : List Char :=
  match s with
  | [] => []
  | c :: rest =>
    if pat ≠ [] ∧ pat.isPrefixOf (c :: rest) then
      repl ++ replaceAllSeq (rest.drop (pat.length - 1)) pat repl
    else
      c :: replaceAllSeq rest pat repl
termination_by s.length
decreasing_by
  all_goals simp_all
  omega

/-- The command-string construction of `runCommand` (lines 92-110), on
character lists: substitute every occurrence of `$FILE` with the quoted file
path, else append the quoted path as a final argument unless the command is a
standalone verb (`exit`, `true`, `false`) either verbatim or followed by a
space and more text. -/
def buildCommand (command filename : List Char) : List Char :=
  if containsSeq command "$FILE".data then
    replaceAllSeq command "$FILE".data ("'".data ++ filename ++ "'".data)
  else
    let isStandalone := standaloneCommands.any (fun s =>
      command == s.data || (s.data ++ " ".data).isPrefixOf command)
    if isStandalone then command
    else command ++ " '".data ++ filename ++ "'".data

/-- Standalone test as the specification words it: the command equals a verb
of the allow-list or is prefixed by one (plain string prefix, no separator
required).  Kept distinct from the source's loop so the two readings can be
compared. -/
def claimStandalone (command : List Char) : Bool :=
  standaloneCommands.any (fun s => command == s.data || (s.data).isPrefixOf command)

/-- Command construction exactly as the specification claim states it,
differing from `buildCommand` only in using `claimStandalone`. -/
def buildCommandClaim (command filename : List Char) : List Char :=
  if containsSeq command "$FILE".data then
    replaceAllSeq command "$FILE".data ("'".data ++ filename ++ "'".data)
  else if claimStandalone command then command
  else command ++ " '".data ++ filename ++ "'".data

/-- Standalone test as the amended claim words it: the command equals one of
the verbs `exit`, `true`, `false`, or starts with one of them followed by a
space. -/
def amendedStandalone (command : List Char) : Bool :=
  (command == "exit".data || ("exit ".data).isPrefixOf command) ||
  ((command == "true".data || ("true ".data).isPrefixOf command) ||
  (command == "false".data || ("false ".data).isPrefixOf command))

/-- Command construction as the amended claim states it, differing from
`buildCommandClaim` only in requiring the separating space after a verb. -/
def buildCommandAmended (command filename : List Char) : List Char :=
  if containsSeq command "$FILE".data then
    replaceAllSeq command "$FILE".data ("'".data ++ filename ++ "'".data)
  else if amendedStandalone command then command
  else command ++ " '".data ++ filename ++ "'".data

/-! ### Concrete fixtures used by witnesses and counterexamples -/

/-- Baseline configuration: no command, no audit file, every flag off. -/
def cfgBase : Config :=
  { command := "", hashesFile := "", audit := false, update := false
    successCodes := fun _ => false, errorCodes := fun _ => false
    filterOnCodes := false, workers := 1, showProgress := false, quiet := false }

/-- A command is configured; no filtering. -/
def cfgCmdOnly : Config :=
  { cfgBase with command := "c" }

/-- Filtering enabled with `-1` in the success set only. -/
def cfgNeg1Success : Config :=
  { cfgBase with command := "c", filterOnCodes := true
                 successCodes := fun c => c == -1 }

/-- Filtering enabled with empty success and error sets. -/
def cfgFilterEmpty : Config :=
  { cfgBase with command := "c", filterOnCodes := true }

/-- Update mode with a hashes file configured. -/
def cfgUpdate : Config :=
  { cfgBase with update := true, hashesFile := "hashes" }

/-- Update and audit modes together with a command configured. -/
def cfgAuditUpdate : Config :=
  { cfgBase with command := "c", update := true, hashesFile := "hashes"
                 audit := true }

/-! ### Association-map lemmas -/

/-- Right-biased choice on optional lookups. -/
def orO (a b : Option String) : Option String :=
  match a with
  | some v => some v
  | none => b

/-- Keys of an audit map, in order. -/
def keysE (m : AuditMap) : List String :=
  m.map AuditEntry.filename

theorem lookupE_setE (m : AuditMap) (a b k : String) :
    lookupE (setE m a b) k = if a = k then some b else lookupE m k := by
  induction m with
  | nil => simp [setE, lookupE]
  | cons e t ih =>
    by_cases hea : e.filename = a
    · subst hea
      simp only [setE, if_pos rfl, lookupE]
      split_ifs <;> simp_all [lookupE]
    · simp only [setE, if_neg hea, lookupE, ih]
      split_ifs <;> simp_all

theorem lookupE_foldl_setE (l : List AuditEntry) (m : AuditMap) (k : String) :
    lookupE (l.foldl (fun m e => setE m e.filename e.hash) m) k
      = orO (lookupE (asMap l) k) (lookupE m k) := by
  induction l generalizing m with
  | nil => simp [asMap, lookupE, orO]
  | cons e t ih =>
    have hmain := ih (setE m e.filename e.hash)
    have hnil := ih (setE [] e.filename e.hash)
    simp only [asMap, List.foldl_cons] at hmain hnil ⊢
    rw [hmain, hnil, lookupE_setE, lookupE_setE]
    cases lookupE (t.foldl (fun m e => setE m e.filename e.hash) []) k <;>
      split_ifs <;> simp [orO, lookupE]

theorem keysE_setE (m : AuditMap) (a b : String) :
    keysE (setE m a b) = if a ∈ keysE m then keysE m else keysE m ++ [a] := by
  induction m with
  | nil => simp [setE, keysE]
  | cons e t ih =>
    by_cases hea : e.filename = a
    · simp [setE, hea, keysE]
    · simp only [setE, if_neg hea, keysE, List.map_cons, ih]
      have : a ∈ keysE (e :: t) ↔ a ∈ keysE t := by
        simp [keysE, Ne.symm hea]
      simp only [keysE] at this
      split_ifs <;> simp_all [keysE]

theorem nodup_keysE_setE (m : AuditMap) (a b : String) (h : (keysE m).Nodup) :
    (keysE (setE m a b)).Nodup := by
  rw [keysE_setE]
  split_ifs with hmem
  · exact h
  · simp [List.nodup_append, h, hmem]

theorem nodup_keysE_foldl (l : List AuditEntry) :
    ∀ m : AuditMap, (keysE m).Nodup →
      (keysE (l.foldl (fun m e => setE m e.filename e.hash) m)).Nodup := by
  induction l with
  | nil => intro m h; simpa using h
  | cons e t ih =>
    intro m h
    exact ih _ (nodup_keysE_setE m e.filename e.hash h)

theorem nodup_keysE_asMap (l : List AuditEntry) : (keysE (asMap l)).Nodup :=
  nodup_keysE_foldl l [] (by simp [keysE])

theorem foldl_setE_cons (l : List AuditEntry) (e : AuditEntry)
    (h : e.filename ∉ keysE l) :
    ∀ m : AuditMap,
      l.foldl (fun m e => setE m e.filename e.hash) (e :: m)
        = e :: l.foldl (fun m e => setE m e.filename e.hash) m := by
  induction l with
  | nil => intro m; rfl
  | cons a t ih =>
    intro m
    have hne : a.filename ≠ e.filename := by
      intro hc
      exact h (by simp [keysE, hc.symm])
    have ht : e.filename ∉ keysE t := fun hc => h (by simp [keysE] at hc ⊢; tauto)
    have hne' : ¬ (e.filename = a.filename) := fun hc => hne hc.symm
    have hstep : setE (e :: m) a.filename a.hash = e :: setE m a.filename a.hash := by
      simp [setE, hne']
    simp only [List.foldl_cons, hstep]
    exact ih ht (setE m a.filename a.hash)

theorem asMap_eq_self (m : AuditMap) (h : (keysE m).Nodup) : asMap m = m := by
  induction m with
  | nil => rfl
  | cons e t ih =>
    have hkey : e.filename ∉ keysE t := by
      simp only [keysE, List.map_cons, List.nodup_cons] at h
      exact fun hc => h.1 (by simpa [keysE] using hc)
    have ht : (keysE t).Nodup := by
      simp only [keysE, List.map_cons, List.nodup_cons] at h
      exact h.2
    show (e :: t).foldl (fun m e => setE m e.filename e.hash) [] = e :: t
    simp only [List.foldl_cons]
    have hsingle : setE ([] : AuditMap) e.filename e.hash = [e] := rfl
    rw [hsingle]
    rw [foldl_setE_cons t e hkey []]
    show e :: asMap t = e :: t
    rw [ih ht]

theorem asMap_asMap (l : List AuditEntry) : asMap (asMap l) = asMap l :=
  asMap_eq_self (asMap l) (nodup_keysE_asMap l)

/-! ### Shared lemmas about the processor and the writer -/

theorem auditFlags_changed (am : Option AuditMap) (f h : String)
    (hc : (auditFlags am f h).2 = true) :
    ∃ m expected, am = some m ∧ lookupE m f = some expected ∧ h ≠ expected := by
  match am with
  | none => simp [auditFlags] at hc
  | some m =>
    match hl : lookupE m f with
    | none => simp [auditFlags, hl] at hc
    | some expected =>
      refine ⟨m, expected, rfl, hl, ?_⟩
      simp [auditFlags, hl] at hc
      exact hc

theorem stagingWrites_eq_filter (rs : List Result) :
    stagingWrites true rs = (rs.filter (fun r => r.exitCode == 0)).map toEntry := by
  induction rs with
  | nil => rfl
  | cons r t ih =>
    simp only [stagingWrites, Bool.true_and, List.filter_cons]
    split_ifs <;> simp_all

theorem stagingWrites_mem (b : Bool) (rs : List Result) (e : AuditEntry)
    (he : e ∈ stagingWrites b rs) :
    ∃ r, r ∈ rs ∧ r.exitCode = 0 ∧ e = toEntry r := by
  induction rs with
  | nil => simp [stagingWrites] at he
  | cons r t ih =>
    simp only [stagingWrites] at he
    split_ifs at he with hc
    · rcases List.mem_cons.mp he with h1 | h2
      · exact ⟨r, by simp, by simp_all, h1⟩
      · obtain ⟨r', hr', h0, he'⟩ := ih h2
        exact ⟨r', by simp [hr'], h0, he'⟩
    · obtain ⟨r', hr', h0, he'⟩ := ih he
      exact ⟨r', by simp [hr'], h0, he'⟩

theorem mem_stagingWrites (rs : List Result) (r : Result)
    (hr : r ∈ rs) (h0 : r.exitCode = 0) : toEntry r ∈ stagingWrites true rs := by
  induction rs with
  | nil => cases hr
  | cons a t ih =>
    rcases List.mem_cons.mp hr with h1 | h2
    · subst h1
      simp [stagingWrites, h0]
    · simp only [stagingWrites, Bool.true_and]
      split_ifs <;> simp [ih h2]

theorem decodeRecords_malformed (records : List RawRecord)
    (hm : RawRecord.malformed ∈ records) : decodeRecords records = none := by
  induction records with
  | nil => cases hm
  | cons r t ih =>
    cases r with
    | malformed => rfl
    | ok e =>
      have ht : RawRecord.malformed ∈ t := by
        rcases List.mem_cons.mp hm with h1 | h2
        · cases h1
        · exact h2
      simp [decodeRecords, ih ht]

/-! ### Claim theorems -/

/-- Claim C1, amended: for a processed file whose command ran, the result is
always kept when filtering is disabled; when filtering is enabled it is kept
iff the exit code is in the success set or the error set, except that exit
code `-1` is kept only when `-1` is in the error set (success-set membership
alone does not keep it). -/
theorem processFile_filter_keep_iff (hashOf : String → Option String)
    (runExit : Config → String → Int) (cfg : Config) (am : Option AuditMap)
    (f h : String) (hh : hashOf f = some h)
    (hran : (processFile hashOf runExit f cfg am).ran = true) :
    (cfg.filterOnCodes = false →
      (processFile hashOf runExit f cfg am).result.isSome = true) ∧
    (cfg.filterOnCodes = true →
      ((processFile hashOf runExit f cfg am).result.isSome = true ↔
        (if runExit cfg f = -1 then cfg.errorCodes (-1) = true
         else (cfg.successCodes (runExit cfg f) || cfg.errorCodes (runExit cfg f)) = true))) := by
  by_cases hrun : (cfg.command != "" && (!cfg.audit || (auditFlags am f h).2)) = true
  · constructor
    · intro hf
      simp only [processFile, hh, hrun, if_true] at *
      split_ifs <;> simp_all
    · intro hf
      simp only [processFile, hh, hrun, hf, if_true] at *
      split_ifs <;> simp_all
      cases hs : cfg.successCodes (runExit cfg f) <;> simp_all
  · exfalso
    simp only [processFile, hh] at hran
    rw [if_neg hrun] at hran
    simp at hran

/-- Claim C1, counterexample to the claim as stated: with filtering enabled
and `-1` in the success set (but not the error set), the command ran with
exit code `-1` yet the result is discarded, although the exit code is a
member of the success set. -/
theorem processFile_filter_success_counterexample :
    cfgNeg1Success.filterOnCodes = true ∧
    cfgNeg1Success.successCodes (-1) = true ∧
    (processFile (fun _ => some "h") (fun _ _ => -1) "f" cfgNeg1Success none).ran = true ∧
    (processFile (fun _ => some "h") (fun _ _ => -1) "f" cfgNeg1Success none).result = none :=
  ⟨rfl, by decide, by decide, by decide⟩

/-- Witness for `processFile_filter_keep_iff` at a concrete input. -/
theorem processFile_filter_keep_iff_witness :
    (processFile (fun _ => some "h") (fun _ _ => 0) "f" cfgCmdOnly none).result.isSome = true :=
  (processFile_filter_keep_iff (fun _ => some "h") (fun _ _ => 0) cfgCmdOnly none
    "f" "h" rfl (by decide)).1 rfl

/-- Claim C2: the command executes iff a command is configured and (audit
mode is off or the file is marked changed); in audit mode the command runs
only on files present in the audit map with a mismatching hash. -/
theorem processFile_ran_iff (hashOf : String → Option String)
    (runExit : Config → String → Int) (cfg : Config) (am : Option AuditMap)
    (f h : String) (hh : hashOf f = some h) :
    ((processFile hashOf runExit f cfg am).ran = true ↔
      (cfg.command ≠ "" ∧ (cfg.audit = false ∨ (auditFlags am f h).2 = true))) ∧
    (cfg.audit = true → (processFile hashOf runExit f cfg am).ran = true →
      cfg.command ≠ "" ∧
        ∃ m expected, am = some m ∧ lookupE m f = some expected ∧ h ≠ expected) := by
  have hmain : (processFile hashOf runExit f cfg am).ran = true ↔
      (cfg.command ≠ "" ∧ (cfg.audit = false ∨ (auditFlags am f h).2 = true)) := by
    by_cases hrun : (cfg.command != "" && (!cfg.audit || (auditFlags am f h).2)) = true
    · simp only [processFile, hh, hrun, if_true]
      split_ifs <;> simp_all
    · simp only [processFile, hh]
      rw [if_neg hrun]
      simp_all
  refine ⟨hmain, fun haudit hran => ?_⟩
  rcases hmain.mp hran with ⟨hcmd, hor⟩
  rcases hor with hfa | hch
  · rw [haudit] at hfa; exact absurd hfa (by simp)
  · exact ⟨hcmd, auditFlags_changed am f h hch⟩

/-- Witness for `processFile_ran_iff` at a concrete input. -/
theorem processFile_ran_iff_witness :
    (processFile (fun _ => some "h") (fun _ _ => 0) "f" cfgCmdOnly none).ran = true :=
  (processFile_ran_iff (fun _ => some "h") (fun _ _ => 0) cfgCmdOnly none "f" "h" rfl).1.mpr
    ⟨by decide, Or.inl rfl⟩

/-- Claim C3: merging is the right-biased union: with the staging file
present, every key reads the staging value when the staging map has it and
the existing value otherwise, and the staging file is deleted; an absent
staging file makes the merge a no-op; an empty staging file is deleted with
the store unchanged; a missing main store file is treated as the empty map
(`s.main.getD []`). -/
theorem mergeHashFiles_union_spec (s : StoreState) (k : String) :
    (s.staging = none → mergeHashFiles s = s) ∧
    (∀ sr, s.staging = some sr →
      (mergeHashFiles s).staging = none ∧
      ∃ m', (mergeHashFiles s).main = some m' ∧
        lookupE m' k = orO (lookupE (asMap sr) k)
          (lookupE (asMap (s.main.getD [])) k)) ∧
    (s.staging = some [] →
      ∃ m', (mergeHashFiles s).main = some m' ∧
        lookupE m' k = lookupE (asMap (s.main.getD [])) k) := by
  have hmerge : ∀ sr, s.staging = some sr →
      (mergeHashFiles s).staging = none ∧
      ∃ m', (mergeHashFiles s).main = some m' ∧
        lookupE m' k = orO (lookupE (asMap sr) k)
          (lookupE (asMap (s.main.getD [])) k) := by
    intro sr hs
    constructor
    · simp [mergeHashFiles, hs]
    · refine ⟨(asMap sr).foldl (fun m e => setE m e.filename e.hash)
          (asMap (s.main.getD [])), ?_, ?_⟩
      · simp [mergeHashFiles, hs]
      · rw [lookupE_foldl_setE, asMap_asMap]
  refine ⟨fun h => by simp [mergeHashFiles, h], hmerge, fun hs => ?_⟩
  obtain ⟨-, m', hm', hl⟩ := hmerge [] hs
  refine ⟨m', hm', ?_⟩
  rw [hl]
  simp [asMap, lookupE, orO]

/-- Witness for `mergeHashFiles_union_spec` at a concrete store with an
overlapping key. -/
theorem mergeHashFiles_union_spec_witness :
    (mergeHashFiles ⟨some [⟨"a", "1"⟩], some [⟨"a", "9"⟩]⟩).staging = none ∧
    ∃ m', (mergeHashFiles ⟨some [⟨"a", "1"⟩], some [⟨"a", "9"⟩]⟩).main = some m' ∧
      lookupE m' "a" = orO (lookupE (asMap [⟨"a", "9"⟩]) "a")
        (lookupE (asMap [⟨"a", "1"⟩]) "a") :=
  (mergeHashFiles_union_spec ⟨some [⟨"a", "1"⟩], some [⟨"a", "9"⟩]⟩ "a").2.1
    [⟨"a", "9"⟩] rfl

/-- Claim C4: with update mode on and a hashes file configured, the staging
writes are exactly one `{filename, hash}` record per result whose exit code
is 0, in order; and unconditionally every staging entry originates from a
result whose exit code was exactly 0. -/
theorem writeResults_staging_exit0 (results : List Result) (cfg : Config) :
    (cfg.update = true → cfg.hashesFile ≠ "" →
      (writeResults results cfg).staging
        = (results.filter (fun r => r.exitCode == 0)).map toEntry) ∧
    (∀ e ∈ (writeResults results cfg).staging,
      ∃ r, r ∈ results ∧ r.exitCode = 0 ∧ e = toEntry r) := by
  constructor
  · intro hu hf
    have hb : (cfg.update && cfg.hashesFile != "") = true := by
      simp [hu, bne_iff_ne, hf]
    simp only [writeResults, hb, stagingWrites_eq_filter]
  · intro e he
    exact stagingWrites_mem _ _ _ he

/-- Witness for `writeResults_staging_exit0` on two concrete results. -/
theorem writeResults_staging_exit0_witness :
    (writeResults ([⟨"a", "h1", 0, false, false⟩, ⟨"b", "h2", 1, false, false⟩] : List Result)
        cfgUpdate).staging
      = (([⟨"a", "h1", 0, false, false⟩, ⟨"b", "h2", 1, false, false⟩] : List Result).filter
          (fun r => r.exitCode == 0)).map toEntry :=
  (writeResults_staging_exit0
    ([⟨"a", "h1", 0, false, false⟩, ⟨"b", "h2", 1, false, false⟩] : List Result)
    cfgUpdate).1 rfl (by decide)

/-- Claim C5: under filtering, a `-1` exit (spawn failure or signal) is
discarded unless `-1` was added to the error set — success-set membership
does not save it since `cfg` is arbitrary here — and the diagnostic hint is
logged unless quiet; with `-1` in the error set the result is kept, so `-1`
is not a hard-coded bypass. -/
theorem processFile_sentinel_filtering (hashOf : String → Option String)
    (runExit : Config → String → Int) (cfg : Config) (am : Option AuditMap)
    (f h : String) (hh : hashOf f = some h)
    (hran : (processFile hashOf runExit f cfg am).ran = true)
    (hfil : cfg.filterOnCodes = true)
    (hcode : runExit cfg f = -1) :
    (cfg.errorCodes (-1) = false →
      (processFile hashOf runExit f cfg am).result = none ∧
      (cfg.quiet = false →
        (processFile hashOf runExit f cfg am).logs = [LogEvent.sentinelHint f])) ∧
    (cfg.errorCodes (-1) = true →
      ∃ r, (processFile hashOf runExit f cfg am).result = some r ∧ r.exitCode = -1) := by
  by_cases hrun : (cfg.command != "" && (!cfg.audit || (auditFlags am f h).2)) = true
  · constructor
    · intro herr
      simp only [processFile, hh, hrun, if_true, hcode, hfil, herr] at *
      constructor
      · split_ifs <;> simp_all
      · intro hq
        split_ifs <;> simp_all
    · intro herr
      refine ⟨{ filename := f, hash := h, exitCode := -1,
                audited := (auditFlags am f h).1, changed := (auditFlags am f h).2 }, ?_, rfl⟩
      simp only [processFile, hh, hrun, if_true, hcode, hfil, herr]
      split_ifs <;> simp_all
  · exfalso
    simp only [processFile, hh] at hran
    rw [if_neg hrun] at hran
    simp at hran

/-- Witness for `processFile_sentinel_filtering` at a concrete input. -/
theorem processFile_sentinel_filtering_witness :
    (processFile (fun _ => some "h") (fun _ _ => -1) "f" cfgFilterEmpty none).result = none ∧
    (cfgFilterEmpty.quiet = false →
      (processFile (fun _ => some "h") (fun _ _ => -1) "f" cfgFilterEmpty none).logs
        = [LogEvent.sentinelHint "f"]) :=
  (processFile_sentinel_filtering (fun _ => some "h") (fun _ _ => -1) cfgFilterEmpty none
    "f" "h" rfl (by decide) rfl rfl).1 rfl

/-- Claim C6: an empty path returns the absent (`nil`) mapping, distinct from
an empty mapping, and with a `nil` map the processor never sets
`audited`/`changed`; a non-empty path naming a missing file is not an error
(an empty file is created and the empty map returned); a malformed record in
an existing file aborts the process. -/
theorem loadAuditFile_contract :
    (∀ content, loadAuditFile "" content = LoadResult.noAudit ∧
      (loadAuditFile "" content).toMap = none) ∧
    (∀ f : String, f ≠ "" →
      loadAuditFile f none = LoadResult.createdEmpty ∧
      (loadAuditFile f none).toMap = some []) ∧
    (∀ (f : String) (records : List RawRecord), f ≠ "" →
      RawRecord.malformed ∈ records →
      loadAuditFile f (some records) = LoadResult.fatal) ∧
    (∀ (hashOf : String → Option String) (runExit : Config → String → Int)
        (fn : String) (cfg : Config) (r : Result),
      (processFile hashOf runExit fn cfg none).result = some r →
      r.audited = false ∧ r.changed = false) := by
  refine ⟨?_, ?_, ?_, ?_⟩
  · intro content
    have h1 : loadAuditFile "" content = LoadResult.noAudit := by
      simp [loadAuditFile]
    exact ⟨h1, by simp [h1, LoadResult.toMap]⟩
  · intro f hf
    constructor <;> simp [loadAuditFile, hf, LoadResult.toMap]
  · intro f records hf hm
    simp [loadAuditFile, hf, decodeRecords_malformed records hm]
  · intro hashOf runExit fn cfg r hr
    cases hhh : hashOf fn with
    | none => simp [processFile, hhh] at hr
    | some h =>
      simp only [processFile, hhh, auditFlags] at hr
      split_ifs at hr <;> simp_all <;> subst hr <;> simp

/-- Witness for `loadAuditFile_contract` at concrete inputs. -/
theorem loadAuditFile_contract_witness :
    loadAuditFile "hashes" none = LoadResult.createdEmpty ∧
    loadAuditFile "hashes" (some [RawRecord.malformed]) = LoadResult.fatal :=
  ⟨(loadAuditFile_contract.2.1 "hashes" (by decide)).1,
   loadAuditFile_contract.2.2.1 "hashes" [RawRecord.malformed] (by decide) (by simp)⟩

/-- Claim C7: when the command does not run (no command configured, or audit
mode on and the file not marked changed), the result is produced with the
default exit code 0 and never reaches classification, for every
configuration — including filtering enabled with 0 in neither set. -/
theorem processFile_no_command_zero (hashOf : String → Option String)
    (runExit : Config → String → Int) (cfg : Config) (am : Option AuditMap)
    (f h : String) (hh : hashOf f = some h)
    (hno : ¬ (cfg.command ≠ "" ∧ (cfg.audit = false ∨ (auditFlags am f h).2 = true))) :
    (processFile hashOf runExit f cfg am).ran = false ∧
    ∃ r, (processFile hashOf runExit f cfg am).result = some r ∧
      r.exitCode = 0 ∧ r.filename = f ∧ r.hash = h := by
  have hrun : ¬ ((cfg.command != "" && (!cfg.audit || (auditFlags am f h).2)) = true) := by
    simp_all
  simp only [processFile, hh]
  rw [if_neg hrun]
  exact ⟨rfl, _, rfl, rfl, rfl, rfl⟩

/-- Witness for `processFile_no_command_zero` with filtering enabled and both
code sets empty. -/
theorem processFile_no_command_zero_witness :
    (processFile (fun _ => some "h") (fun _ _ => 7) "f"
        { cfgBase with filterOnCodes := true } none).ran = false ∧
    ∃ r, (processFile (fun _ => some "h") (fun _ _ => 7) "f"
        { cfgBase with filterOnCodes := true } none).result = some r ∧
      r.exitCode = 0 ∧ r.filename = "f" ∧ r.hash = "h" :=
  processFile_no_command_zero (fun _ => some "h") (fun _ _ => 7)
    { cfgBase with filterOnCodes := true } none "f" "h" rfl (by decide)

/-- Claim C8: every input filename yields at most one result, and with
filtering disabled and no hashing failure the pipeline yields exactly one
result per input file; `cfg` (hence the worker count `cfg.workers`) is
arbitrary. -/
theorem processFiles_result_count (hashOf : String → Option String)
    (runExit : Config → String → Int) (files : List String) (cfg : Config)
    (am : Option AuditMap) :
    (processFiles hashOf runExit files cfg am).length ≤ files.length ∧
    (cfg.filterOnCodes = false → (∀ f ∈ files, (hashOf f).isSome = true) →
      (processFiles hashOf runExit files cfg am).length = files.length) := by
  constructor
  · exact List.length_filterMap_le _ _
  · intro hfil hall
    induction files with
    | nil => rfl
    | cons f t ih =>
      have hf : (hashOf f).isSome = true := hall f (by simp)
      obtain ⟨h, hh⟩ := Option.isSome_iff_exists.mp hf
      have hsome : (processFile hashOf runExit f cfg am).result.isSome = true := by
        simp only [processFile, hh, hfil]
        split_ifs <;> simp_all
      obtain ⟨r, hr⟩ := Option.isSome_iff_exists.mp hsome
      simp only [processFiles, List.filterMap_cons] at *
      rw [hr]
      simp [ih (fun f hf => hall f (by simp [hf]))]

/-- Witness for `processFiles_result_count` on three files. -/
theorem processFiles_result_count_witness :
    (processFiles (fun _ => some "h") (fun _ _ => 0) ["a", "b", "c"] cfgBase none).length
      = ["a", "b", "c"].length :=
  (processFiles_result_count (fun _ => some "h") (fun _ _ => 0) ["a", "b", "c"]
    cfgBase none).2 rfl (by decide)

/-- Claim C9, amended: the built command substitutes every `$FILE` with the
quoted path, else appends the quoted path unless the command equals one of
the standalone verbs `exit`, `true`, `false` or starts with a verb followed
by a space; `buildCommandAmended` is that amended wording and agrees with the
source construction everywhere. -/
theorem buildCommand_amended_spec (command filename : List Char) :
    buildCommand command filename = buildCommandAmended command filename := by
  have he : "exit".data ++ " ".data = "exit ".data := by decide
  have ht : "true".data ++ " ".data = "true ".data := by decide
  have hf : "false".data ++ " ".data = "false ".data := by decide
  have hstand : standaloneCommands.any (fun s =>
      command == s.data || (s.data ++ " ".data).isPrefixOf command)
      = amendedStandalone command := by
    simp [standaloneCommands, List.any, amendedStandalone, he, ht, hf]
  unfold buildCommand buildCommandAmended
  rw [hstand]

/-- Claim C9, counterexample to the claim as stated: `truely` is prefixed by
the standalone verb `true` (and differs from it), so the claim's reading
appends nothing, but the source appends the quoted path because the verb is
not followed by a space. -/
theorem buildCommand_verb_counterexample :
    buildCommand "truely".data "f".data = ("truely 'f'").data ∧
    buildCommandClaim "truely".data "f".data = "truely".data ∧
    ("true".data).isPrefixOf "truely".data = true ∧
    "truely".data ≠ "true".data :=
  ⟨by decide, by decide, by decide, by decide⟩

/-- Claim C10: in update mode with audit mode on, a file that hashes
successfully and is not marked changed (absent from the map, or present with
an equal hash) produces a result with the default exit code 0 without running
the command, and its `{filename, hash}` entry is written to the staging
file. -/
theorem update_staging_unchanged (hashOf : String → Option String)
    (runExit : Config → String → Int) (files : List String) (cfg : Config)
    (am : Option AuditMap) (f h : String)
    (hupd : cfg.update = true) (hfile : cfg.hashesFile ≠ "")
    (haud : cfg.audit = true) (hmem : f ∈ files) (hh : hashOf f = some h)
    (hunch : (auditFlags am f h).2 = false) :
    (processFile hashOf runExit f cfg am).ran = false ∧
    ∃ r, (processFile hashOf runExit f cfg am).result = some r ∧ r.exitCode = 0 ∧
      r.filename = f ∧ r.hash = h ∧
      toEntry r ∈ (writeResults (processFiles hashOf runExit files cfg am) cfg).staging := by
  have hrun : ¬ ((cfg.command != "" && (!cfg.audit || (auditFlags am f h).2)) = true) := by
    simp [haud, hunch]
  have hproc : processFile hashOf runExit f cfg am =
      ⟨some ⟨f, h, 0, (auditFlags am f h).1, (auditFlags am f h).2⟩, false, []⟩ := by
    simp only [processFile, hh]
    rw [if_neg hrun]
  refine ⟨by rw [hproc], _, by rw [hproc], rfl, rfl, rfl, ?_⟩
  have hin : (⟨f, h, 0, (auditFlags am f h).1, (auditFlags am f h).2⟩ : Result)
      ∈ processFiles hashOf runExit files cfg am := by
    simp only [processFiles]
    refine List.mem_filterMap.mpr ⟨f, hmem, ?_⟩
    rw [hproc]
  have hnew : (cfg.update && cfg.hashesFile != "") = true := by
    simp [hupd, bne_iff_ne, hfile]
  simp only [writeResults, hnew]
  exact mem_stagingWrites _ _ hin rfl

/-- Witness for `update_staging_unchanged`: an unchanged audited file ends up
in the staging writes with exit code 0 and no command run. -/
theorem update_staging_unchanged_witness :
    (processFile (fun _ => some "h") (fun _ _ => 3) "a" cfgAuditUpdate
        (some [⟨"a", "h"⟩])).ran = false ∧
    ∃ r, (processFile (fun _ => some "h") (fun _ _ => 3) "a" cfgAuditUpdate
        (some [⟨"a", "h"⟩])).result = some r ∧ r.exitCode = 0 ∧
      r.filename = "a" ∧ r.hash = "h" ∧
      toEntry r ∈ (writeResults (processFiles (fun _ => some "h") (fun _ _ => 3)
        ["a"] cfgAuditUpdate (some [⟨"a", "h"⟩])) cfgAuditUpdate).staging :=
  update_staging_unchanged (fun _ => some "h") (fun _ _ => 3) ["a"] cfgAuditUpdate
    (some [⟨"a", "h"⟩]) "a" "h" rfl (by decide) rfl (by decide) rfl (by decide)

end GoHashCheckMe
